import Mathlib

/-!
Shallow embedding of the transcript format detector and normalizer of
`src/lib/teams.ts` (and the `detectFormat` variant of `api/upload.ts`).

Strings are modelled as lists of Unicode scalar values (`List Char`);
JavaScript regular-expression character classes are modelled by their
ASCII subsets (`\s` as ASCII whitespace, `toLowerCase` on ASCII letters),
which coincides with JavaScript on all inputs appearing in the claims.
-/

abbrev Str := List Char

def ofString (s : String) : Str := s.data

/-- ASCII subset of the JavaScript `\s` class (space, tab, LF, CR, VT, FF). -/
def isWsB (c : Char) : Bool :=
  c = ' ' || c = '\t' || c = '\n' || c = '\r' || c = Char.ofNat 11 || c = Char.ofNat 12

def isDigitB (c : Char) : Bool := '0' ≤ c && c ≤ '9'

def isUpperB (c : Char) : Bool := 'A' ≤ c && c ≤ 'Z'

def isLowerB (c : Char) : Bool := 'a' ≤ c && c ≤ 'z'

def isLetterB (c : Char) : Bool := isUpperB c || isLowerB c

/-- The character class `[a-zA-Z'-]` of the speaker-name patterns. -/
def nameRestB (c : Char) : Bool := isLetterB c || c = Char.ofNat 39 || c = '-'

/-- ASCII `toLowerCase`, modelling JavaScript case folding on ASCII input. -/
def lowerChar (c : Char) : Char := c.toLower

/-- `String.prototype.trimStart` (ASCII whitespace). -/
def trimL (s : Str) : Str := s.dropWhile isWsB

/-- `String.prototype.trimEnd` (ASCII whitespace). -/
def trimR (s : Str) : Str := (s.reverse.dropWhile isWsB).reverse

/-- `String.prototype.trim` (ASCII whitespace). -/
def trimS (s : Str) : Str := trimR (trimL s)

/-- `a.startsWith(p)`. -/
def startsWithS (p s : Str) : Bool := List.isPrefixOf p s

/-- `s.includes(needle)`. -/
def containsSub (needle : Str) : Str → Bool
  | [] => List.isPrefixOf needle []
  | c :: t => List.isPrefixOf needle (c :: t) || containsSub needle t

/-- `s.split('\n')`. -/
def splitNl : Str → List Str
  | [] => [[]]
  | c :: t =>
    if c = '\n' then [] :: splitNl t
    else
      match splitNl t with
      | [] => [[c]]
      | h :: r => (c :: h) :: r

/-- `s.split('\n\n')` (non-overlapping, left to right). -/
def splitOn2Nl : Str → List Str
  | [] => [[]]
  | [c] => [[c]]
  | c1 :: c2 :: t =>
    if c1 = '\n' && c2 = '\n' then [] :: splitOn2Nl t
    else
      match splitOn2Nl (c2 :: t) with
      | [] => [[c1]]
      | h :: r => (c1 :: h) :: r

theorem length_dropWhile_le (p : Char → Bool) (l : Str) :
    (l.dropWhile p).length ≤ l.length := by
  induction l with
  | nil => simp [List.dropWhile]
  | cons c t ih =>
    simp only [List.dropWhile]
    cases p c
    · simp
    · simp
      omega

/-- Scanner for `s.split(/\n\n+/)`: `cur` is the piece being built,
`pend` the number of newlines seen immediately before the cursor. -/
def splitNlRunsGo (cur : Str) (pend : Nat) : Str → List Str
  | [] =>
    if pend ≥ 2 then [cur, []]
    else [cur ++ List.replicate pend '\n']
  | c :: t =>
    if c = '\n' then splitNlRunsGo cur (pend + 1) t
    else if pend ≥ 2 then cur :: splitNlRunsGo [c] 0 t
    else splitNlRunsGo (cur ++ List.replicate pend '\n' ++ [c]) 0 t

/-- `s.split(/\n\n+/)`: split on runs of two or more newlines. -/
def splitNlRuns (s : Str) : List Str := splitNlRunsGo [] 0 s

/-- `parts.join(' ')`. -/
def joinSp : List Str → Str
  | [] => []
  | [l] => l
  | l :: ls => l ++ ' ' :: joinSp ls

/-- `parts.join('\n')`. -/
def joinNl : List Str → Str
  | [] => []
  | [l] => l
  | l :: ls => l ++ '\n' :: joinNl ls

/-- `parts.join('\n\n')`. -/
def join2Nl : List Str → Str
  | [] => []
  | [l] => l
  | l :: ls => l ++ '\n' :: '\n' :: join2Nl ls

/-! ### Timestamp and duration-phrase matchers -/

/-- `^(\d{1,2}):(\d{2})$` — an entire string of the form `M:SS` or `MM:SS`. -/
def shortTsExact : Str → Bool
  | [a, b, c, d] => isDigitB a && b = ':' && isDigitB c && isDigitB d
  | [a, b, c, d, e] => isDigitB a && isDigitB b && c = ':' && isDigitB d && isDigitB e
  | _ => false

/-- Case-insensitive (`ci = true`) or exact literal match dropping the
literal from the front; the literal is given in lowercase. -/
def litDrop (ci : Bool) : Str → Str → Option Str
  | [], s => some s
  | _ :: _, [] => none
  | a :: la, b :: lb =>
    if (if ci then lowerChar b else b) = a then litDrop ci la lb else none

/-- Shared tail of `\d+\s+minutes?\s+(\d+)\s+seconds?`, starting after the
first digit run: returns the second digit group and the remaining input
just after `second` (before any trailing `s`). -/
def durTail (ci : Bool) (r1 : Str) : Option (Str × Str) :=
  if r1.takeWhile isWsB = [] then none
  else
    match litDrop ci (ofString "minute") (r1.dropWhile isWsB) with
    | none => none
    | some r3 =>
      let r4 := match r3 with
        | c :: t => if (if ci then lowerChar c else c) = 's' then t else r3
        | [] => r3
      if r4.takeWhile isWsB = [] then none
      else
        let r5 := r4.dropWhile isWsB
        let g2 := r5.takeWhile isDigitB
        if g2 = [] then none
        else
          let r6 := r5.dropWhile isDigitB
          if r6.takeWhile isWsB = [] then none
          else
            match litDrop ci (ofString "second") (r6.dropWhile isWsB) with
            | none => none
            | some r8 => some (g2, r8)

/-- `^(\d+)\s+minutes?\s+(\d+)\s+seconds?$` with optional case folding:
anchored at both ends, returning the two digit groups. -/
def longTsExact (ci : Bool) (t : Str) : Option (Str × Str) :=
  let g1 := t.takeWhile isDigitB
  if g1 = [] then none
  else
    match durTail ci (t.dropWhile isDigitB) with
    | none => none
    | some (g2, r8) =>
      let r9 := match r8 with
        | c :: t' => if (if ci then lowerChar c else c) = 's' then t' else r8
        | [] => r8
      if r9 = [] then some (g1, g2) else none

/-- One unanchored attempt of `(\d+)\s+minutes?\s+(\d+)\s+seconds?` at the
start of `t` (trailing `s?` never constrains a search hit). -/
def durAt (t : Str) : Option (Str × Str) :=
  let g1 := t.takeWhile isDigitB
  if g1 = [] then none
  else
    match durTail true (t.dropWhile isDigitB) with
    | none => none
    | some (g2, _) => some (g1, g2)

/-- First match of `/(\d+)\s+minutes?\s+(\d+)\s+seconds?/i` anywhere in `t`. -/
def durSearch : Str → Option (Str × Str)
  | [] => none
  | c :: t =>
    match durAt (c :: t) with
    | some g => some g
    | none => durSearch t

/-- `ts.padStart(2, '0')`. -/
def padStart2 (s : Str) : Str :=
  if s.length ≥ 2 then s else List.replicate (2 - s.length) '0' ++ s

/-- Timestamp normalisation used by the Teams parser: rewrite a long-form
duration to `M:SS`, keep anything else unchanged. -/
def normTs (ts : Str) : Str :=
  match durSearch ts with
  | some (m1, m2) => m1 ++ ':' :: padStart2 m2
  | none => ts

/-! ### Format detection (`detectTranscriptFormat` of `lib/teams.ts`,
`detectFormat` of `api/upload.ts`) -/

inductive TFormat where
  | vtt
  | teamsText
  | srt
  | plain
deriving DecidableEq, Repr

/-- `trimmed.startsWith('WEBVTT') || trimmed.includes('\n00:') && trimmed.includes(' --> ')`. -/
def vttSigB (t : Str) : Bool :=
  startsWithS (ofString "WEBVTT") t ||
    (containsSub (ofString "\n00:") t && containsSub (ofString " --> ") t)

/-- `\d{2}:\d{2}:\d{2},\d{3}` as a prefix, returning the rest. -/
def tsComma : Str → Option Str
  | a :: b :: c :: d :: e :: f :: g :: h :: i :: j :: k :: l :: rest =>
    if isDigitB a && isDigitB b && c = ':' && isDigitB d && isDigitB e && f = ':' &&
        isDigitB g && isDigitB h && i = ',' && isDigitB j && isDigitB k && isDigitB l then
      some rest
    else none
  | _ => none

/-- `\d{2}:…,\d{3}\s*-->\s*\d{2}:…,\d{3}` as a prefix. -/
def tsCommaPairB (t : Str) : Bool :=
  match tsComma t with
  | some r =>
    match r.dropWhile isWsB with
    | '-' :: '-' :: '>' :: r2 => (tsComma (r2.dropWhile isWsB)).isSome
    | _ => false
  | none => false

/-- The SRT signature at one line start: `\d+\s*\n` then a comma-millisecond
timestamp pair (the greedy `\s*` forces the newline to close the run). -/
def srtAtLineStart (s : Str) : Bool :=
  if (s.takeWhile isDigitB) = [] then false
  else
    let r1 := s.dropWhile isDigitB
    (r1.takeWhile isWsB).getLast? = some '\n' && tsCommaPairB (r1.dropWhile isWsB)

/-- Run a predicate at every position that starts a line (`^` with `m`). -/
def anyLineStartGo (p : Str → Bool) : Bool → Str → Bool
  | atStart, [] => atStart && p []
  | atStart, c :: t => (atStart && p (c :: t)) || anyLineStartGo p (c = '\n') t

def anyLineStart (p : Str → Bool) (s : Str) : Bool := anyLineStartGo p true s

def srtSigB (t : Str) : Bool := anyLineStart srtAtLineStart t

def phraseAi : Str := ofString "ai-generated content may be incorrect"

def phraseStarted : Str := ofString "started transcription"

/-- Case-insensitive substring test for an all-lowercase literal. -/
def ciContains (phrase s : Str) : Bool := containsSub phrase (s.map lowerChar)

/-- `/\d+\s+minutes?\s+\d+\s+seconds?/i.test(t)`. -/
def durSigB (t : Str) : Bool := (durSearch t).isSome

/-- `/^\d{1,2}:\d{2}\s*$/m.test(t)`: some newline-delimited line is a short
timestamp followed only by whitespace. -/
def tsLineSigB (t : Str) : Bool := (splitNl t).any fun l => shortTsExact (trimR l)

/-- One attempt of `\d{1,2}:\d{2}\s*\n[A-Z][a-z]+\s+[A-Z][a-z]+`: the greedy
`\s*\n` forces the whitespace run after the timestamp to end in a newline. -/
def tsNameAt (s : Str) : Bool :=
  let afterTs : Option Str :=
    match s with
    | a :: ':' :: c :: d :: rest =>
      if isDigitB a && isDigitB c && isDigitB d then some rest else none
    | a :: b :: ':' :: d :: e :: rest =>
      if isDigitB a && isDigitB b && isDigitB d && isDigitB e then some rest else none
    | _ => none
  match afterTs with
  | none => false
  | some rest =>
    (rest.takeWhile isWsB).getLast? = some '\n' &&
      (match rest.dropWhile isWsB with
       | c :: r =>
         isUpperB c && !(r.takeWhile isLowerB).isEmpty &&
           (let r2 := r.dropWhile isLowerB
            !(r2.takeWhile isWsB).isEmpty &&
              match r2.dropWhile isWsB with
              | c2 :: r3 => isUpperB c2 && !(r3.takeWhile isLowerB).isEmpty
              | [] => false)
       | [] => false)

def anySuffix (p : Str → Bool) : Str → Bool
  | [] => p []
  | c :: t => p (c :: t) || anySuffix p t

/-- `/\d{1,2}:\d{2}\s*\n[A-Z][a-z]+\s+[A-Z][a-z]+/m.test(t)`. -/
def tsNameSigB (t : Str) : Bool := anySuffix tsNameAt t

/-- The three free-text Teams signatures (the only ones in `api/upload.ts`,
and the ones named by the specification). -/
def teamsSig3B (t : Str) : Bool :=
  ciContains phraseAi t || ciContains phraseStarted t || durSigB t

/-- All five Teams signatures of `lib/teams.ts`. -/
def teamsSigB (t : Str) : Bool := teamsSig3B t || tsLineSigB t || tsNameSigB t

/-- `detectTranscriptFormat` of `lib/teams.ts`. -/
def detectTranscriptFormat (content : Str) : TFormat :=
  let t := trimS content
  if vttSigB t then .vtt
  else if srtSigB t then .srt
  else if teamsSigB t then .teamsText
  else .plain

/-- `detectFormat` of `api/upload.ts` (three Teams signatures only). -/
def detectFormat (content : Str) : TFormat :=
  let t := trimS content
  if vttSigB t then .vtt
  else if srtSigB t then .srt
  else if teamsSig3B t then .teamsText
  else .plain

/-! ### Speaker-name patterns of the Teams-text parser -/

/-- Greedy `(?:\s+[A-Z][a-zA-Z'-]+)*` continuation: extend the captured name
`acc` with further whitespace-separated titlecase tokens.  The fuel is a
length bound on `rest`; each step consumes at least two characters. -/
def nameSeqGo (first : Char → Bool) : Nat → Str → Str → Str × Str
  | 0, acc, rest => (acc, rest)
  | fuel + 1, acc, rest =>
    let w := rest.takeWhile isWsB
    if w.isEmpty then (acc, rest)
    else
      match rest.dropWhile isWsB with
      | c :: r =>
        if first c then
          let run := r.takeWhile nameRestB
          if run.isEmpty then (acc, rest)
          else nameSeqGo first fuel (acc ++ w ++ c :: run) (r.dropWhile nameRestB)
        else (acc, rest)
      | [] => (acc, rest)

/-- Greedy `[A-Z][a-zA-Z'-]+(?:\s+[A-Z][a-zA-Z'-]+)*` at the start of `t`
(`first` is `[A-Z]`, or any ASCII letter under the `i` flag), returning the
captured name and the rest.  Because name tokens start with a letter while
the following alternatives start with a digit or colon, the greedy maximal
parse is equivalent to the backtracking regex semantics. -/
def nameSeqExec (first : Char → Bool) : Str → Option (Str × Str)
  | [] => none
  | c :: r =>
    if first c then
      let run := r.takeWhile nameRestB
      if run.isEmpty then none
      else some (nameSeqGo first r.length (c :: run) (r.dropWhile nameRestB))
    else none

/-- `speakerPattern = /^([A-Z][a-zA-Z'-]+(?:\s+[A-Z][a-zA-Z'-]+)*)(?:\s+(\d{1,2}:\d{2}|\d+\s+minutes?\s+\d+\s+seconds?))?$/`
(case-sensitive), returning the name and the optional raw timestamp group. -/
def smExec (t : Str) : Option (Str × Option Str) :=
  match nameSeqExec isUpperB t with
  | none => none
  | some (nm, rest) =>
    if rest.isEmpty then some (nm, none)
    else if (rest.takeWhile isWsB).isEmpty then none
    else
      let ts := rest.dropWhile isWsB
      if shortTsExact ts || (longTsExact false ts).isSome then some (nm, some ts) else none

/-- `speakerWithTimestamp = /^([A-Z][a-zA-Z'-]+(?:\s+[A-Z][a-zA-Z'-]+)*)\s+(\d+\s+minutes?\s+\d+\s+seconds?|\d{1,2}:\d{2})$/i`
(case-insensitive, timestamp mandatory). -/
def swtExec (t : Str) : Option (Str × Str) :=
  match nameSeqExec isLetterB t with
  | none => none
  | some (nm, rest) =>
    if (rest.takeWhile isWsB).isEmpty then none
    else
      let ts := rest.dropWhile isWsB
      if (longTsExact true ts).isSome || shortTsExact ts then some (nm, ts) else none

/-- Continuation of `duplicateSpeakerCheck`: after a titlecase token, look
for `\s+\d`, else extend by a further token. -/
def dupGo : Nat → Str → Bool
  | 0, _ => false
  | fuel + 1, rest =>
    if (rest.takeWhile isWsB).isEmpty then false
    else
      match rest.dropWhile isWsB with
      | c :: r =>
        if isDigitB c then true
        else if isUpperB c then
          if (r.takeWhile nameRestB).isEmpty then false
          else dupGo fuel (r.dropWhile nameRestB)
        else false
      | [] => false

/-- `duplicateSpeakerCheck = /^([A-Z][a-zA-Z'-]+(?:\s+[A-Z][a-zA-Z'-]+)*)\s+\d/.test(trimmed)`. -/
def dupCheckB : Str → Bool
  | [] => false
  | c :: r =>
    if isUpperB c then
      if (r.takeWhile nameRestB).isEmpty then false else dupGo r.length (r.dropWhile nameRestB)
    else false

/-! ### The Teams-text parser (`parseTeamsTextTranscript`) -/

structure PEntry where
  speaker : Option Str
  timestamp : Option Str
  text : Str
deriving DecidableEq, Repr

/-- JavaScript truthiness of a nullable string. -/
def truthyS : Option Str → Bool
  | some s => !s.isEmpty
  | none => false

structure TState where
  speaker : Option Str
  ts : Option Str
  buffer : List Str
  entries : List PEntry
deriving DecidableEq, Repr

/-- The guarded flush inside the speaker branch:
`if (textBuffer.length > 0 && currentSpeaker) { push; clear }`. -/
def teamsFlush (st : TState) : TState :=
  if !st.buffer.isEmpty && truthyS st.speaker then
    { st with
      entries := st.entries ++ [⟨st.speaker, st.ts, trimS (joinSp st.buffer)⟩],
      buffer := [] }
  else st

/-- One iteration of the Teams-text line loop. -/
def teamsStep (st : TState) (line : Str) : TState :=
  let t := trimS line
  if t.isEmpty then st
  else if shortTsExact t then { st with ts := some t }
  else
    match longTsExact true t with
    | some (g1, g2) => { st with ts := some (g1 ++ ':' :: padStart2 g2) }
    | none =>
      match swtExec t, smExec t with
      | some (nm, ts), _ =>
        let st' := teamsFlush st
        { st' with speaker := some (trimS nm), ts := some (normTs ts) }
      | none, some (nm, tsOpt) =>
        let st' := teamsFlush st
        { st' with
          speaker := some (trimS nm),
          ts := match tsOpt with
            | some ts => some (normTs ts)
            | none => st'.ts }
      | none, none =>
        if dupCheckB t && truthyS st.speaker &&
            (match st.speaker with
             | some sp => startsWithS sp t
             | none => false) then
          st
        else { st with buffer := st.buffer ++ [t] }

/-- The header filter removing the AI disclaimer and `started transcription`
lines before the loop. -/
def keepLine (l : Str) : Bool :=
  let tl := (trimS l).map lowerChar
  !(containsSub phraseAi tl) && !(containsSub phraseStarted tl)

def parseTeamsEntries (content : Str) : List PEntry :=
  let st := ((splitNl content).filter keepLine).foldl teamsStep ⟨none, none, [], []⟩
  if st.buffer.isEmpty then st.entries
  else st.entries ++ [⟨st.speaker, st.ts, trimS (joinSp st.buffer)⟩]

/-- `[ts] Speaker: text` rendering of one Teams entry: parts are pushed
only when truthy, then joined by single spaces. -/
def renderTeamsEntry (e : PEntry) : Str :=
  joinSp
    ((if truthyS e.timestamp then [['['] ++ e.timestamp.getD [] ++ [']']] else []) ++
     (if truthyS e.speaker then [e.speaker.getD [] ++ [':']] else []) ++
     [e.text])

/-- `parseTeamsTextTranscript` of `lib/teams.ts`. -/
def parseTeamsTextTranscript (content : Str) : Str :=
  join2Nl (((parseTeamsEntries content).filter fun e => !e.text.isEmpty).map renderTeamsEntry)

/-! ### The VTT parser (`parseVttTranscript`) -/

/-- `text.replace(/<\/v>/g, '')` (left-to-right, non-overlapping); the fuel
is a length bound on the input. -/
def removeAllVCloseGo : Nat → Str → Str
  | 0, s => s
  | _ + 1, [] => []
  | fuel + 1, c :: t =>
    if List.isPrefixOf (ofString "</v>") (c :: t) then removeAllVCloseGo fuel (t.drop 3)
    else c :: removeAllVCloseGo fuel t

def removeAllVClose (s : Str) : Str := removeAllVCloseGo s.length s

/-- Skip the optional `\/?`; the `/` is forced whenever present since `v`
cannot match it. -/
def slashSkip : Str → Str
  | [] => []
  | c :: r => if c = '/' then r else c :: r

/-- One attempt of `<\/?v[^>]*>` at the current position: returns the rest
after the tag when it matches. -/
def vMarkupAt : Str → Option Str
  | [] => none
  | c1 :: rest =>
    if c1 = '<' then
      match slashSkip rest with
      | [] => none
      | c2 :: t =>
        if c2 = 'v' then
          match t.dropWhile (fun c => c ≠ '>') with
          | [] => none
          | d :: r => if d = '>' then some r else none
        else none
    else none

/-- `text.replace(/<\/?v[^>]*>/g, '')` (left-to-right, non-overlapping).
The fuel is a length bound on the input. -/
def removeVTagsGo : Nat → Str → Str
  | 0, s => s
  | fuel + 1, s =>
    match s with
    | [] => []
    | c :: t =>
      match vMarkupAt (c :: t) with
      | some r => removeVTagsGo fuel r
      | none => c :: removeVTagsGo fuel t

def removeVTags (s : Str) : Str := removeVTagsGo s.length s

/-- One attempt of `<v\s+([^>]+)>(.*)` at the current position.  The greedy
`\s+` may have to give characters back to the mandatory `[^>]+`, which the
`min` below accounts for. -/
def vTagParseAt : Str → Option (Str × Str)
  | c1 :: c2 :: r =>
    if c1 = '<' && c2 = 'v' then
      let w := r.takeWhile isWsB
      let total := r.takeWhile (fun c => c ≠ '>')
      if w.isEmpty || total.length < 2 then none
      else
        match r.drop total.length with
        | [] => none
        | d :: rest => if d = '>' then some (total.drop (min w.length (total.length - 1)), rest) else none
    else none
  | _ => none

/-- First match of `/<v\s+([^>]+)>(.*)/` anywhere in the line. -/
def vTagSearch : Str → Option (Str × Str)
  | [] => none
  | c :: t =>
    match vTagParseAt (c :: t) with
    | some x => some x
    | none => vTagSearch t

/-- `/^\d{2}:\d{2}/.test(trimmed)`. -/
def startsCueTime : Str → Bool
  | a :: b :: c :: d :: e :: _ =>
    isDigitB a && isDigitB b && c = ':' && isDigitB d && isDigitB e
  | _ => false

/-- `/^\d+$/.test(trimmed)`. -/
def isAllDigits (t : Str) : Bool := !t.isEmpty && t.all isDigitB

structure VState where
  speaker : Option Str
  buffer : List Str
  entries : List PEntry
deriving DecidableEq, Repr

/-- Flush the VTT buffer into an entry under the current speaker. -/
def vttFlush (st : VState) : VState :=
  if st.buffer.isEmpty then st
  else
    { st with
      entries := st.entries ++ [⟨st.speaker, none, trimS (joinSp st.buffer)⟩],
      buffer := [] }

/-- One iteration of the VTT line loop. -/
def vttStep (st : VState) (line : Str) : VState :=
  let t := trimS line
  if t = ofString "WEBVTT" || startsWithS (ofString "NOTE") t ||
      startsWithS (ofString "Kind:") t || startsWithS (ofString "Language:") t then st
  else if t.isEmpty then vttFlush st
  else if isAllDigits t then st
  else if startsCueTime t || containsSub (ofString "-->") t then st
  else
    match vTagSearch t with
    | some (nm, rest) =>
      let st' := vttFlush st
      let txt := trimS (removeAllVClose rest)
      { st' with speaker := some (trimS nm), buffer := if txt.isEmpty then [] else [txt] }
    | none =>
      let c := trimS (removeVTags t)
      if c.isEmpty then st else { st with buffer := st.buffer ++ [c] }

def parseVttEntries (content : Str) : List PEntry :=
  (vttFlush ((splitNl content).foldl vttStep ⟨none, [], []⟩)).entries

/-- `e.speaker ? \x7b`${e.speaker}: ${e.text}`\x7d : e.text`. -/
def renderVttEntry (e : PEntry) : Str :=
  if truthyS e.speaker then e.speaker.getD [] ++ ':' :: ' ' :: e.text else e.text

/-- `parseVttTranscript` of `lib/teams.ts`. -/
def parseVttTranscript (content : Str) : Str :=
  joinNl (((parseVttEntries content).filter fun e => !e.text.isEmpty).map renderVttEntry)

/-! ### The SRT parser (`parseSrtTranscript`) -/

/-- Texts contributed by one SRT block: blocks with fewer than three lines
contribute nothing; otherwise the index and timestamp lines are dropped and
the remaining lines joined by spaces. -/
def srtBlockTexts (b : Str) : List Str :=
  let lines := splitNl (trimS b)
  if 3 ≤ lines.length then
    let txt := trimS (joinSp (lines.drop 2))
    if txt.isEmpty then [] else [txt]
  else []

def parseSrtTexts (content : Str) : List Str :=
  (splitNlRuns content).foldr (fun b acc => srtBlockTexts b ++ acc) []

/-- `parseSrtTranscript` of `lib/teams.ts`. -/
def parseSrtTranscript (content : Str) : Str := joinNl (parseSrtTexts content)

/-! ### `parseTranscript`: dispatch, rendering and block re-parsing -/

/-- The bracket prefix `\[[\d:]+\]` of the block speaker pattern, returning
the rest after the closing bracket. -/
def bracketStrip : Str → Option Str
  | [] => none
  | c :: t =>
    if c = '[' then
      let run := t.takeWhile fun c => isDigitB c || c = ':'
      if run.isEmpty then none
      else
        match t.drop run.length with
        | ']' :: r => some r
        | _ => none
    else none

/-- `([^:]+):` on `b` without the bracket option: the maximal colon-free
prefix, which must be non-empty and followed by a colon. -/
def firstColonSplit (b : Str) : Option (Str × Str) :=
  let pre := b.takeWhile fun c => c ≠ ':'
  if pre.isEmpty then none
  else
    match b.dropWhile (fun c => c ≠ ':') with
    | [] => none
    | d :: after => if d = ':' then some (pre, after) else none

/-- `block.match(/^(?:\[[\d:]+\]\s*)?([^:]+):\s*(.*)$/s)`: the greedy
optional bracket is tried first; inside it the greedy `\s*` gives back just
enough to leave `[^:]+` non-empty.  Returns the raw speaker group and the
already-trimmed text group (`\s*` plus the subsequent `.trim()` collapse to
a single trim). -/
def blockSpeakerMatch (b : Str) : Option (Str × Str) :=
  match bracketStrip b with
  | some r2 =>
    let pre := r2.takeWhile fun c => c ≠ ':'
    if pre.isEmpty then (firstColonSplit b).map fun p => (p.1, trimS p.2)
    else
      match r2.dropWhile (fun c => c ≠ ':') with
      | [] => (firstColonSplit b).map fun p => (p.1, trimS p.2)
      | d :: after =>
        if d = ':' then
          let k := min (r2.takeWhile isWsB).length (pre.length - 1)
          some ((r2.drop k).take (pre.length - k), trimS after)
        else (firstColonSplit b).map fun p => (p.1, trimS p.2)
  | none => (firstColonSplit b).map fun p => (p.1, trimS p.2)

/-- `block.match(/^\[(\d{1,2}:\d{2})\]/)`. -/
def tsBracketMatch : Str → Option Str
  | [] => none
  | c :: r =>
    if c = '[' then
      match r with
      | a :: ':' :: x :: y :: ']' :: _ =>
        if isDigitB a && isDigitB x && isDigitB y then some [a, ':', x, y] else none
      | a :: b :: ':' :: x :: y :: ']' :: _ =>
        if isDigitB a && isDigitB b && isDigitB x && isDigitB y then some [a, b, ':', x, y]
        else none
      | _ => none
    else none

/-- Structured entry built from one non-empty block of `rawText`. -/
def mkEntry (b : Str) : PEntry :=
  match blockSpeakerMatch b with
  | some (sp, tx) => ⟨some (trimS sp), tsBracketMatch b, tx⟩
  | none => ⟨none, none, trimS b⟩

structure PTResult where
  entries : List PEntry
  participants : List Str
  rawText : Str
  format : TFormat
deriving DecidableEq, Repr

/-! ### Participant extraction (`extractParticipants`) -/

/-- One attempt of `^(?:\[[\d:]+\]\s*)?([A-Z][a-zA-Z'-]+(?:\s+[A-Z][a-zA-Z'-]+)*):`
at a line start.  If the optional bracket matches but the name part fails,
retrying without the bracket also fails (the position then holds `[`,
not `[A-Z]`), so the bracket branch need not fall back. -/
def partMatchAt (s : Str) : Option (Str × Str) :=
  let body : Str → Option (Str × Str) := fun r =>
    match nameSeqExec isUpperB r with
    | some (nm, ':' :: r2) => some (nm, r2)
    | _ => none
  match bracketStrip s with
  | some r1 => body (r1.dropWhile isWsB)
  | none => body s

/-- The `gm` exec loop: at each line start try the speaker pattern; on a hit
record the name and resume after the colon.  Fuel bounds the input length. -/
def partScanGo (p : Str → Option (Str × Str)) : Nat → Bool → Str → List Str
  | 0, _, _ => []
  | fuel + 1, atStart, s =>
    match (if atStart then p s else none) with
    | some (nm, rest) => nm :: partScanGo p fuel false rest
    | none =>
      match s with
      | [] => []
      | c :: t => partScanGo p fuel (c = '\n') t

def partScan (s : Str) : List Str := partScanGo partMatchAt (s.length + 1) true s

def partDenylist : List Str :=
  [ofString "Note", ofString "Warning", ofString "Error", ofString "Info",
   ofString "TODO", ofString "WEBVTT"]

/-- Insertion into the `Set` of speakers, skipping the denylist. -/
def addName (acc : List Str) (n : Str) : List Str :=
  if n ∈ partDenylist then acc else if n ∈ acc then acc else acc ++ [n]

def collectNames (s : Str) : List Str := (partScan s).foldl addName []

/-- Lexicographic comparison of strings by scalar value, as JavaScript's
default `Array.prototype.sort` compares strings. -/
def strLe : Str → Str → Bool
  | [], _ => true
  | _ :: _, [] => false
  | a :: as, b :: bs => if a < b then true else if b < a then false else strLe as bs

def strLeR (a b : Str) : Prop := strLe a b = true

instance : DecidableRel strLeR := fun a b => inferInstanceAs (Decidable (strLe a b = true))

/-- `extractParticipants` of `lib/teams.ts`: scan, denylist-filtered
deduplication, ascending sort. -/
def extractParticipants (s : Str) : List Str :=
  List.insertionSort strLeR (collectNames s)

/-! ### `validateTranscript` -/

inductive VResult where
  | valid
  | noContent
  | tooShort
  | tooLarge
  | likelyBinary
deriving DecidableEq, Repr

/-- The printable-ASCII-plus-whitespace class `[\x20-\x7E\n\r\t]`. -/
def isPrintableOk (c : Char) : Bool :=
  (' ' ≤ c && c ≤ '~') || c = '\n' || c = '\r' || c = '\t'

/-- `validateTranscript` of `lib/teams.ts`.  The floating-point comparison
`count / length > 0.1` agrees with the rational `10 * count > length` for
every length reachable at that check (the 10 MiB guard runs first). -/
def validateTranscript (content : Str) : VResult :=
  if content.isEmpty then .noContent
  else
    let t := trimS content
    if t.length < 50 then .tooShort
    else if t.length > 10 * 1024 * 1024 then .tooLarge
    else if 10 * t.countP (fun c => !isPrintableOk c) > t.length then .likelyBinary
    else .valid

/-! ### `parseTranscript` -/

def parseTranscript (content : Str) : PTResult :=
  let format := detectTranscriptFormat content
  let rawText :=
    match format with
    | .vtt => parseVttTranscript content
    | .teamsText => parseTeamsTextTranscript content
    | .srt => parseSrtTranscript content
    | .plain => trimS content
  { entries := ((splitOn2Nl rawText).filter fun b => !b.isEmpty).map mkEntry,
    participants := extractParticipants rawText,
    rawText := rawText,
    format := format }

/-! ## Lemmas about the string primitives -/

theorem mem_takeWhile_sub {p : Char → Bool} {l : Str} {c : Char}
    (h : c ∈ l.takeWhile p) : c ∈ l :=
  (List.takeWhile_prefix p).subset h

theorem mem_dropWhile_sub {p : Char → Bool} {l : Str} {c : Char}
    (h : c ∈ l.dropWhile p) : c ∈ l :=
  (List.dropWhile_suffix p).subset h

theorem mem_trimL_sub {l : Str} {c : Char} (h : c ∈ trimL l) : c ∈ l :=
  mem_dropWhile_sub h

theorem mem_trimR_sub {l : Str} {c : Char} (h : c ∈ trimR l) : c ∈ l := by
  unfold trimR at h
  rw [List.mem_reverse] at h
  have := mem_dropWhile_sub h
  rwa [List.mem_reverse] at this

theorem mem_trimS_sub {l : Str} {c : Char} (h : c ∈ trimS l) : c ∈ l :=
  mem_trimL_sub (mem_trimR_sub h)

/-- The head of `dropWhile p l` does not satisfy `p`. -/
theorem head_dropWhile_not {p : Char → Bool} {l : Str} {c : Char}
    (h : (l.dropWhile p).head? = some c) : p c = false := by
  induction l with
  | nil => simp at h
  | cons a t ih =>
    rw [List.dropWhile_cons] at h
    by_cases hp : p a = true
    · rw [if_pos hp] at h
      exact ih h
    · rw [if_neg hp] at h
      simp at h
      subst h
      simpa using hp

theorem dropWhile_of_head_not {p : Char → Bool} {l : Str}
    (h : ∀ c, l.head? = some c → p c = false) : l.dropWhile p = l := by
  cases l with
  | nil => rfl
  | cons a t =>
    have := h a (by simp)
    rw [List.dropWhile_cons, if_neg]
    simp [this]

def headNonWs (l : Str) : Prop := ∀ c, l.head? = some c → isWsB c = false

def lastNonWs (l : Str) : Prop := headNonWs l.reverse

theorem headNonWs_trimL (l : Str) : headNonWs (trimL l) := fun _ h => head_dropWhile_not h

theorem trimL_of_headNonWs {l : Str} (h : headNonWs l) : trimL l = l :=
  dropWhile_of_head_not h

theorem lastNonWs_trimR (l : Str) : lastNonWs (trimR l) := by
  intro c h
  rw [trimR, List.reverse_reverse] at h
  exact head_dropWhile_not h

theorem trimR_of_lastNonWs {l : Str} (h : lastNonWs l) : trimR l = l := by
  unfold trimR
  rw [dropWhile_of_head_not h, List.reverse_reverse]

theorem trimR_isPrefix (l : Str) : trimR l <+: l := by
  have h2 : (List.dropWhile isWsB l.reverse).reverse <+: l.reverse.reverse :=
    List.reverse_prefix.mpr (List.dropWhile_suffix _)
  rwa [List.reverse_reverse] at h2

/-- `trimR l` is a prefix of `l`, so a non-empty `trimR l` has the same head. -/
theorem head_trimR {l : Str} {c : Char} (h : (trimR l).head? = some c) :
    l.head? = some c := by
  rcases trimR_isPrefix l with ⟨t, ht⟩
  cases htr : trimR l with
  | nil => rw [htr] at h; simp at h
  | cons a r =>
    rw [htr] at h
    simp at h
    rw [← ht, htr, h]
    simp

theorem headNonWs_trimR {l : Str} (h : headNonWs l) : headNonWs (trimR l) :=
  fun c hc => h c (head_trimR hc)

theorem headNonWs_trimS (l : Str) : headNonWs (trimS l) :=
  headNonWs_trimR (headNonWs_trimL l)

theorem lastNonWs_trimS (l : Str) : lastNonWs (trimS l) := lastNonWs_trimR _

theorem trimS_of_clean {l : Str} (h1 : headNonWs l) (h2 : lastNonWs l) : trimS l = l := by
  rw [trimS, trimL_of_headNonWs h1, trimR_of_lastNonWs h2]

theorem trimS_idem (l : Str) : trimS (trimS l) = trimS l :=
  trimS_of_clean (headNonWs_trimS l) (lastNonWs_trimS l)

theorem takeWhile_append_all {p : Char → Bool} {l r : Str} (h : ∀ c ∈ l, p c = true) :
    (l ++ r).takeWhile p = l ++ r.takeWhile p := by
  induction l with
  | nil => simp
  | cons a t ih =>
    have ha : p a = true := h a (by simp)
    simp only [List.cons_append, List.takeWhile_cons, ha, if_true]
    rw [ih fun c hc => h c (by simp [hc])]

theorem dropWhile_append_all {p : Char → Bool} {l r : Str} (h : ∀ c ∈ l, p c = true) :
    (l ++ r).dropWhile p = r.dropWhile p := by
  induction l with
  | nil => simp
  | cons a t ih =>
    have ha : p a = true := h a (by simp)
    simp only [List.cons_append, List.dropWhile_cons, ha, if_true]
    exact ih fun c hc => h c (by simp [hc])

/-! ### Newline structure -/

def noNl (l : Str) : Prop := '\n' ∉ l

theorem noNl_sub {l m : Str} (hsub : ∀ c, c ∈ m → c ∈ l) (hl : noNl l) : noNl m :=
  fun hm => hl (hsub _ hm)

theorem noNl_trimS {l : Str} (h : noNl l) : noNl (trimS l) :=
  noNl_sub (fun _ hc => mem_trimS_sub hc) h

theorem noNl_append {l r : Str} (hl : noNl l) (hr : noNl r) : noNl (l ++ r) := by
  intro h
  rcases List.mem_append.mp h with h | h
  · exact hl h
  · exact hr h

theorem splitNl_ne_nil (s : Str) : splitNl s ≠ [] := by
  cases s with
  | nil => simp [splitNl]
  | cons c t =>
    simp only [splitNl]
    by_cases h : c = '\n'
    · simp [h]
    · rw [if_neg h]
      cases splitNl t <;> simp

theorem noNl_of_mem_splitNl : ∀ {s l : Str}, l ∈ splitNl s → noNl l := by
  intro s
  induction s with
  | nil =>
    intro l h
    simp [splitNl] at h
    simp [h, noNl]
  | cons c t ih =>
    intro l h
    simp only [splitNl] at h
    by_cases hc : c = '\n'
    · rw [if_pos hc] at h
      rcases List.mem_cons.mp h with h | h
      · simp [h, noNl]
      · exact ih h
    · rw [if_neg hc] at h
      rcases hs : splitNl t with _ | ⟨hd, r⟩
      · exact absurd hs (splitNl_ne_nil t)
      · rw [hs] at h
        rcases List.mem_cons.mp h with h | h
        · have hhd : noNl hd := ih (by rw [hs]; simp)
          subst h
          intro hmem
          rcases List.mem_cons.mp hmem with h | h
          · exact hc h.symm
          · exact hhd h
        · exact ih (by rw [hs]; exact List.mem_cons_of_mem _ h)

/-- Two consecutive newlines occur somewhere in the string. -/
def hasNlNl : Str → Bool
  | [] => false
  | [_] => false
  | a :: b :: t => (a = '\n' && b = '\n') || hasNlNl (b :: t)

theorem splitOn2Nl_of_not_hasNlNl : ∀ {s : Str}, hasNlNl s = false → splitOn2Nl s = [s] := by
  intro s
  induction s with
  | nil => intro _; rfl
  | cons c t ih =>
    intro h
    cases t with
    | nil => rfl
    | cons c2 t2 =>
      simp only [hasNlNl, Bool.or_eq_false_iff, Bool.and_eq_false_iff] at h
      simp only [splitOn2Nl]
      rw [if_neg (by simp only [Bool.and_eq_true]; rintro ⟨h1, h2⟩; rcases h.1 with h3 | h3 <;> simp_all)]
      rw [ih h.2]

theorem hasNlNl_append_noNl : ∀ {l : Str}, noNl l → ∀ r, hasNlNl (l ++ r) = hasNlNl r := by
  intro l
  induction l with
  | nil => intro _ r; rfl
  | cons a t ih =>
    intro h r
    have ha : a ≠ '\n' := fun hc => h (by simp [hc])
    have ht : noNl t := fun hc => h (List.mem_cons_of_mem _ hc)
    cases t with
    | nil =>
      cases r with
      | nil => rfl
      | cons b r2 => simp [hasNlNl, ha]
    | cons b t2 =>
      have := ih ht r
      simp only [List.cons_append] at this ⊢
      simp [hasNlNl, ha, this]

theorem hasNlNl_of_noNl {l : Str} (h : noNl l) : hasNlNl l = false := by
  have := hasNlNl_append_noNl h []
  simpa using this

theorem joinNl_cons_cons (a b : Str) (t : List Str) :
    joinNl (a :: b :: t) = a ++ '\n' :: joinNl (b :: t) := rfl

theorem head_joinNl_cons {l : Str} (ls : List Str) (h : l ≠ []) :
    (joinNl (l :: ls)).head? = l.head? := by
  cases ls with
  | nil => rfl
  | cons b t =>
    rw [joinNl_cons_cons]
    exact List.head?_append_of_ne_nil _ h

theorem joinNl_ne_nil {l : Str} (ls : List Str) (h : l ≠ []) : joinNl (l :: ls) ≠ [] := by
  cases ls with
  | nil => exact h
  | cons b t =>
    rw [joinNl_cons_cons]
    simp

theorem hasNlNl_joinNl : ∀ {ls : List Str}, (∀ l ∈ ls, noNl l ∧ l ≠ []) →
    hasNlNl (joinNl ls) = false := by
  intro ls
  induction ls with
  | nil => intro _; rfl
  | cons l t ih =>
    intro h
    have hl := h l (by simp)
    cases t with
    | nil => exact hasNlNl_of_noNl hl.1
    | cons l2 t2 =>
      rw [joinNl_cons_cons, hasNlNl_append_noNl hl.1]
      have hl2 := h l2 (by simp)
      have hrec : hasNlNl (joinNl (l2 :: t2)) = false :=
        ih fun x hx => h x (List.mem_cons_of_mem _ hx)
      cases hj : joinNl (l2 :: t2) with
      | nil => rfl
      | cons x r =>
        have hx : x ≠ '\n' := by
          have hh : (joinNl (l2 :: t2)).head? = l2.head? := head_joinNl_cons t2 hl2.2
          rw [hj] at hh
          simp at hh
          intro hxe
          cases hl2cases : l2 with
          | nil => exact hl2.2 hl2cases
          | cons y r2 =>
            rw [hl2cases] at hh
            simp at hh
            apply hl2.1
            rw [hl2cases, ← hh, hxe]
            simp
        rw [hj] at hrec
        simp [hasNlNl, hx, hrec]

theorem headNonWs_append {l r : Str} (hne : l ≠ []) (h : headNonWs l) :
    headNonWs (l ++ r) := by
  intro c hc
  rw [List.head?_append_of_ne_nil _ hne] at hc
  exact h c hc

theorem lastNonWs_append {l r : Str} (hne : r ≠ []) (h : lastNonWs r) :
    lastNonWs (l ++ r) := by
  unfold lastNonWs at h ⊢
  rw [List.reverse_append]
  exact headNonWs_append (by simpa using hne) h

theorem clean_of_trimS_fix {l : Str} (h : trimS l = l) : headNonWs l ∧ lastNonWs l := by
  constructor
  · rw [← h]; exact headNonWs_trimS l
  · rw [← h]; exact lastNonWs_trimS l

theorem lastNonWs_joinNl : ∀ {ls : List Str}, ls ≠ [] →
    (∀ l ∈ ls, lastNonWs l ∧ l ≠ []) → lastNonWs (joinNl ls) := by
  intro ls
  induction ls with
  | nil => intro h; exact absurd rfl h
  | cons l t ih =>
    intro _ h
    have hl := h l (by simp)
    cases t with
    | nil => exact hl.1
    | cons l2 t2 =>
      rw [joinNl_cons_cons]
      have hrec : lastNonWs (joinNl (l2 :: t2)) :=
        ih (by simp) fun x hx => h x (List.mem_cons_of_mem _ hx)
      have hne : joinNl (l2 :: t2) ≠ [] := joinNl_ne_nil t2 (h l2 (by simp)).2
      have : lastNonWs ('\n' :: joinNl (l2 :: t2)) := by
        unfold lastNonWs
        rw [List.reverse_cons]
        exact headNonWs_append (by simpa using hne) hrec
      exact lastNonWs_append (by simp) this

/-- Whitespace-clean strings have a non-whitespace head. -/
theorem headNonWs_of_clean_ne {l : Str} (h : trimS l = l) :
    ∀ c r, l = c :: r → isWsB c = false := by
  intro c r hl
  exact (clean_of_trimS_fix h).1 c (by rw [hl]; simp)

/-! ### Subset lemmas for the VTT markup helpers -/

theorem noNl_joinSp : ∀ {bs : List Str}, (∀ b ∈ bs, noNl b) → noNl (joinSp bs) := by
  intro bs
  induction bs with
  | nil => intro _; simp [joinSp, noNl]
  | cons l t ih =>
    intro h
    have hl := h l (by simp)
    cases t with
    | nil => exact hl
    | cons l2 t2 =>
      show noNl (l ++ ' ' :: joinSp (l2 :: t2))
      apply noNl_append hl
      intro hmem
      rcases List.mem_cons.mp hmem with h1 | h1
      · exact absurd h1.symm (by decide)
      · exact ih (fun x hx => h x (List.mem_cons_of_mem _ hx)) h1

theorem slashSkip_sub {r : Str} {c : Char} (h : c ∈ slashSkip r) : c ∈ r := by
  cases r with
  | nil => simpa [slashSkip] using h
  | cons a t =>
    simp only [slashSkip] at h
    by_cases ha : a = '/'
    · rw [if_pos ha] at h
      exact List.mem_cons_of_mem _ h
    · rwa [if_neg ha] at h

theorem vMarkupAt_sub {s r : Str} (h : vMarkupAt s = some r) : ∀ c ∈ r, c ∈ s := by
  cases s with
  | nil => simp [vMarkupAt] at h
  | cons c1 rest =>
    simp only [vMarkupAt] at h
    by_cases h1 : c1 = '<'
    · rw [if_pos h1] at h
      cases hs : slashSkip rest with
      | nil => rw [hs] at h; simp at h
      | cons c2 t =>
        rw [hs] at h
        dsimp only at h
        by_cases h2 : c2 = 'v'
        · rw [if_pos h2] at h
          cases hd : t.dropWhile (fun c => c ≠ '>') with
          | nil => rw [hd] at h; simp at h
          | cons d r2 =>
            rw [hd] at h
            dsimp only at h
            by_cases h3 : d = '>'
            · rw [if_pos h3] at h
              simp at h
              subst h
              intro c hc
              have hc2 : c ∈ t.dropWhile (fun c => c ≠ '>') := by
                rw [hd]; exact List.mem_cons_of_mem _ hc
              have hc3 : c ∈ t := mem_dropWhile_sub hc2
              have hc4 : c ∈ slashSkip rest := by
                rw [hs]; exact List.mem_cons_of_mem _ hc3
              exact List.mem_cons_of_mem _ (slashSkip_sub hc4)
            · rw [if_neg h3] at h; simp at h
        · rw [if_neg h2] at h; simp at h
    · rw [if_neg h1] at h; simp at h

theorem removeAllVCloseGo_sub :
    ∀ (fuel : Nat) (s : Str) (c : Char), c ∈ removeAllVCloseGo fuel s → c ∈ s := by
  intro fuel
  induction fuel with
  | zero => intro s c h; exact h
  | succ n ih =>
    intro s c h
    cases s with
    | nil => simpa [removeAllVCloseGo] using h
    | cons a t =>
      simp only [removeAllVCloseGo] at h
      by_cases hp : List.isPrefixOf (ofString "</v>") (a :: t) = true
      · rw [if_pos hp] at h
        have := ih _ _ h
        exact List.mem_cons_of_mem _ (List.drop_subset _ _ this)
      · rw [if_neg hp] at h
        rcases List.mem_cons.mp h with h1 | h1
        · simp [h1]
        · exact List.mem_cons_of_mem _ (ih _ _ h1)

theorem removeAllVClose_sub {s : Str} {c : Char} (h : c ∈ removeAllVClose s) : c ∈ s :=
  removeAllVCloseGo_sub _ _ _ h

theorem removeVTagsGo_sub :
    ∀ (fuel : Nat) (s : Str) (c : Char), c ∈ removeVTagsGo fuel s → c ∈ s := by
  intro fuel
  induction fuel with
  | zero => intro s c h; exact h
  | succ n ih =>
    intro s c h
    cases s with
    | nil => simpa [removeVTagsGo] using h
    | cons a t =>
      simp only [removeVTagsGo] at h
      cases hm : vMarkupAt (a :: t) with
      | some r =>
        rw [hm] at h
        exact vMarkupAt_sub hm c (ih _ _ h)
      | none =>
        rw [hm] at h
        rcases List.mem_cons.mp h with h1 | h1
        · simp [h1]
        · exact List.mem_cons_of_mem _ (ih _ _ h1)

theorem removeVTags_sub {s : Str} {c : Char} (h : c ∈ removeVTags s) : c ∈ s :=
  removeVTagsGo_sub _ _ _ h

theorem vTagParseAt_sub {s nm rest : Str} (h : vTagParseAt s = some (nm, rest)) :
    (∀ c ∈ nm, c ∈ s) ∧ (∀ c ∈ rest, c ∈ s) := by
  cases s with
  | nil => simp [vTagParseAt] at h
  | cons c1 s1 =>
    cases s1 with
    | nil => simp [vTagParseAt] at h
    | cons c2 r =>
      simp only [vTagParseAt] at h
      by_cases h1 : (c1 = '<' && c2 = 'v') = true
      · rw [if_pos h1] at h
        by_cases h2 : ((r.takeWhile isWsB).isEmpty ||
            decide ((r.takeWhile fun c => c ≠ '>').length < 2)) = true
        · rw [if_pos h2] at h; simp at h
        · rw [if_neg h2] at h
          cases hd : r.drop (r.takeWhile fun c => c ≠ '>').length with
          | nil => rw [hd] at h; simp at h
          | cons d r2 =>
            rw [hd] at h
            dsimp only at h
            by_cases h3 : d = '>'
            · rw [if_pos h3] at h
              simp only [Option.some.injEq, Prod.mk.injEq] at h
              obtain ⟨h4, h5⟩ := h
              subst h4
              subst h5
              constructor
              · intro c hc
                have : c ∈ (r.takeWhile fun c => c ≠ '>') := List.drop_subset _ _ hc
                exact List.mem_cons_of_mem _ (List.mem_cons_of_mem _ (mem_takeWhile_sub this))
              · intro c hc
                have : c ∈ r.drop (r.takeWhile fun c => c ≠ '>').length := by
                  rw [hd]
                  exact List.mem_cons_of_mem _ hc
                exact List.mem_cons_of_mem _ (List.mem_cons_of_mem _ (List.drop_subset _ _ this))
            · rw [if_neg h3] at h; simp at h
      · rw [if_neg h1] at h; simp at h

/-- Well-formedness of a parsed VTT entry: text and speaker are
whitespace-clean and contain no newline. -/
def entryOk (e : PEntry) : Prop :=
  trimS e.text = e.text ∧ noNl e.text ∧
    ∀ sp, e.speaker = some sp → trimS sp = sp ∧ noNl sp

/-- Invariant of the VTT line loop. -/
def vinv (st : VState) : Prop :=
  (∀ e ∈ st.entries, entryOk e) ∧ (∀ b ∈ st.buffer, noNl b) ∧
    ∀ sp, st.speaker = some sp → trimS sp = sp ∧ noNl sp

theorem vTagSearch_sub :
    ∀ {t nm rest : Str}, vTagSearch t = some (nm, rest) →
      (∀ c ∈ nm, c ∈ t) ∧ (∀ c ∈ rest, c ∈ t) := by
  intro t
  induction t with
  | nil => intro nm rest h; simp [vTagSearch] at h
  | cons a s ih =>
    intro nm rest h
    simp only [vTagSearch] at h
    cases hp : vTagParseAt (a :: s) with
    | some x =>
      rw [hp] at h
      simp at h
      rw [h] at hp
      exact vTagParseAt_sub hp
    | none =>
      rw [hp] at h
      have := ih h
      exact ⟨fun c hc => List.mem_cons_of_mem _ (this.1 c hc),
             fun c hc => List.mem_cons_of_mem _ (this.2 c hc)⟩

theorem vinv_flush {st : VState} (h : vinv st) : vinv (vttFlush st) := by
  unfold vttFlush
  by_cases hb : st.buffer.isEmpty = true
  · rw [if_pos hb]; exact h
  · rw [if_neg hb]
    refine ⟨?_, ?_, ?_⟩
    · intro e he
      rcases List.mem_append.mp he with he | he
      · exact h.1 e he
      · have he2 : e = ⟨st.speaker, none, trimS (joinSp st.buffer)⟩ := by simpa using he
        subst he2
        refine ⟨trimS_idem _, noNl_trimS (noNl_joinSp h.2.1), ?_⟩
        intro sp hsp
        exact h.2.2 sp hsp
    · intro b hb2
      simp at hb2
    · intro sp hsp
      exact h.2.2 sp hsp

theorem vinv_step {st : VState} {line : Str} (hinv : vinv st) (hl : noNl line) :
    vinv (vttStep st line) := by
  have ht : noNl (trimS line) := noNl_trimS hl
  unfold vttStep
  dsimp only
  by_cases h1 : (decide (trimS line = ofString "WEBVTT") ||
      startsWithS (ofString "NOTE") (trimS line) ||
      startsWithS (ofString "Kind:") (trimS line) ||
      startsWithS (ofString "Language:") (trimS line)) = true
  · rw [if_pos h1]; exact hinv
  rw [if_neg h1]
  by_cases h2 : (trimS line).isEmpty = true
  · rw [if_pos h2]; exact vinv_flush hinv
  rw [if_neg h2]
  by_cases h3 : isAllDigits (trimS line) = true
  · rw [if_pos h3]; exact hinv
  rw [if_neg h3]
  by_cases h4 : (startsCueTime (trimS line) || containsSub (ofString "-->") (trimS line)) = true
  · rw [if_pos h4]; exact hinv
  rw [if_neg h4]
  cases hv : vTagSearch (trimS line) with
  | some p =>
      rcases p with ⟨nm, rest⟩
      dsimp only
      have hsub := vTagSearch_sub hv
      have hnm : noNl nm := noNl_sub hsub.1 ht
      have hrest : noNl rest := noNl_sub hsub.2 ht
      have hf := vinv_flush hinv
      refine ⟨hf.1, ?_, ?_⟩
      · intro b hb
        by_cases he : (trimS (removeAllVClose rest)).isEmpty = true
        · rw [if_pos he] at hb
          simp at hb
        · rw [if_neg he] at hb
          have hb2 : b = trimS (removeAllVClose rest) := by simpa using hb
          subst hb2
          exact noNl_trimS (noNl_sub (fun c hc => removeAllVClose_sub hc) hrest)
      · intro sp hsp
        have hsp2 : trimS nm = sp := by simpa using hsp
        subst hsp2
        exact ⟨trimS_idem _, noNl_trimS hnm⟩
  | none =>
      dsimp only
      by_cases he : (trimS (removeVTags (trimS line))).isEmpty = true
      · rw [if_pos he]; exact hinv
      · rw [if_neg he]
        refine ⟨hinv.1, ?_, hinv.2.2⟩
        intro b hb
        rcases List.mem_append.mp hb with hb | hb
        · exact hinv.2.1 b hb
        · have hb2 : b = trimS (removeVTags (trimS line)) := by simpa using hb
          subst hb2
          exact noNl_trimS (noNl_sub (fun c hc => removeVTags_sub hc) ht)

theorem vinv_foldl :
    ∀ (lines : List Str) (st : VState), vinv st → (∀ l ∈ lines, noNl l) →
      vinv (lines.foldl vttStep st) := by
  intro lines
  induction lines with
  | nil => intro st h _; exact h
  | cons l t ih =>
    intro st h hl
    exact ih _ (vinv_step h (hl l (by simp))) fun x hx => hl x (List.mem_cons_of_mem _ hx)

/-- Every entry produced by the VTT parser is well-formed. -/
theorem vtt_entries_ok (content : Str) : ∀ e ∈ parseVttEntries content, entryOk e := by
  have hinv0 : vinv ⟨none, [], []⟩ := by
    refine ⟨?_, ?_, ?_⟩ <;> intro x hx <;> simp at hx
  have h := vinv_foldl (splitNl content) _ hinv0 fun l hl => noNl_of_mem_splitNl hl
  exact (vinv_flush h).1

theorem noNl_cons {c : Char} {l : Str} (hc : c ≠ '\n') (hl : noNl l) : noNl (c :: l) := by
  intro h
  rcases List.mem_cons.mp h with h | h
  · exact hc h.symm
  · exact hl h

theorem renderVttEntry_some {e : PEntry} {sp : Str} (h : e.speaker = some sp)
    (hne : sp ≠ []) : renderVttEntry e = sp ++ ':' :: ' ' :: e.text := by
  unfold renderVttEntry
  rw [h]
  have : truthyS (some sp) = true := by
    simp [truthyS, hne]
  rw [this, if_pos rfl]
  rfl

/-- A rendered line of a well-formed non-empty entry is non-empty, free of
newlines, and ends in a non-whitespace character. -/
theorem renderVttEntry_ok {e : PEntry} (hok : entryOk e) (hne : e.text ≠ []) :
    noNl (renderVttEntry e) ∧ renderVttEntry e ≠ [] ∧ lastNonWs (renderVttEntry e) := by
  have hclean := clean_of_trimS_fix hok.1
  cases hsp : e.speaker with
  | none =>
    have hr : renderVttEntry e = e.text := by simp [renderVttEntry, hsp, truthyS]
    rw [hr]
    exact ⟨hok.2.1, hne, hclean.2⟩
  | some s =>
    by_cases hs : s = []
    · have hr : renderVttEntry e = e.text := by
        simp [renderVttEntry, hsp, truthyS, hs]
      rw [hr]
      exact ⟨hok.2.1, hne, hclean.2⟩
    · rw [renderVttEntry_some hsp hs]
      have hsok := hok.2.2 s hsp
      refine ⟨?_, ?_, ?_⟩
      · exact noNl_append hsok.2
          (noNl_cons (by decide) (noNl_cons (by decide) hok.2.1))
      · cases s with
        | nil => exact absurd rfl hs
        | cons a t => simp
      · have : (':' :: ' ' :: e.text) = [':', ' '] ++ e.text := rfl
        apply lastNonWs_append (by simp)
        rw [this]
        exact lastNonWs_append hne hclean.2

theorem bracketStrip_of_head_ne {c : Char} {t : Str} (h : c ≠ '[') :
    bracketStrip (c :: t) = none := by
  simp [bracketStrip, h]

theorem tsBracketMatch_of_head_ne {c : Char} {t : Str} (h : c ≠ '[') :
    tsBracketMatch (c :: t) = none := by
  simp [tsBracketMatch, h]

theorem firstColonSplit_of_shape {sp X : Str} (hne : sp ≠ [])
    (hcol : ∀ c ∈ sp, c ≠ ':') :
    firstColonSplit (sp ++ ':' :: X) = some (sp, X) := by
  have hpre : (sp ++ ':' :: X).takeWhile (fun c => c ≠ ':') = sp := by
    rw [takeWhile_append_all (by intro c hc; simpa using hcol c hc)]
    simp [List.takeWhile_cons]
  have hdrop : (sp ++ ':' :: X).dropWhile (fun c => c ≠ ':') = ':' :: X := by
    rw [dropWhile_append_all (by intro c hc; simpa using hcol c hc)]
    simp [List.dropWhile_cons]
  unfold firstColonSplit
  dsimp only
  rw [hpre, hdrop]
  rw [if_neg (by simp [hne])]
  dsimp only
  rw [if_pos rfl]

/-- Block speaker matching on a block of the shape `sp ++ ":" ++ X`, where
the speaker part is non-empty, colon-free, and does not start with `[`. -/
theorem blockSpeakerMatch_of_shape {sp X : Str} (hne : sp ≠ [])
    (hcol : ∀ c ∈ sp, c ≠ ':') (hhd : sp.head? ≠ some '[') :
    blockSpeakerMatch (sp ++ ':' :: X) = some (sp, trimS X) := by
  have hbr : bracketStrip (sp ++ ':' :: X) = none := by
    cases hs : sp with
    | nil => exact absurd hs hne
    | cons s0 t =>
      rw [hs] at hhd
      have hs0 : s0 ≠ '[' := by simpa using hhd
      rw [List.cons_append]
      exact bracketStrip_of_head_ne hs0
  unfold blockSpeakerMatch
  rw [hbr]
  dsimp only
  rw [firstColonSplit_of_shape hne hcol]
  rfl

theorem mkEntry_of_shape {sp X : Str} (hne : sp ≠ [])
    (hcol : ∀ c ∈ sp, c ≠ ':') (hhd : sp.head? ≠ some '[') :
    mkEntry (sp ++ ':' :: X) = ⟨some (trimS sp), none, trimS X⟩ := by
  unfold mkEntry
  rw [blockSpeakerMatch_of_shape hne hcol hhd]
  dsimp only
  congr 1
  cases hs : sp with
  | nil => exact absurd hs hne
  | cons s0 t =>
    rw [hs] at hhd
    have hs0 : s0 ≠ '[' := by simpa using hhd
    rw [List.cons_append]
    exact tsBracketMatch_of_head_ne hs0

theorem trimS_space_cons {Y : Str} (h1 : headNonWs Y) (h2 : lastNonWs Y) :
    trimS (' ' :: Y) = Y := by
  unfold trimS trimL
  rw [List.dropWhile_cons, if_pos (by decide)]
  rw [dropWhile_of_head_not h1]
  exact trimR_of_lastNonWs h2

/-! ### Lemmas about the Teams-text line classifier -/

theorem detect_trimS (s : Str) : detectTranscriptFormat (trimS s) = detectTranscriptFormat s := by
  unfold detectTranscriptFormat
  rw [trimS_idem]

theorem shortTsExact_ne_nil {t : Str} (h : shortTsExact t = true) : t ≠ [] := by
  intro he
  rw [he] at h
  exact absurd h (by decide)

theorem nameSeqExec_head {first : Char → Bool} {t : Str} {x : Str × Str}
    (h : nameSeqExec first t = some x) : ∃ c r, t = c :: r ∧ first c = true := by
  cases t with
  | nil => simp [nameSeqExec] at h
  | cons c r =>
    by_cases hc : first c = true
    · exact ⟨c, r, rfl, hc⟩
    · rw [show nameSeqExec first (c :: r) = none from by
        simp only [nameSeqExec]
        rw [if_neg hc]] at h
      simp at h

theorem smExec_head {t : Str} {x : Str × Option Str} (h : smExec t = some x) :
    ∃ c r, t = c :: r ∧ isUpperB c = true := by
  unfold smExec at h
  cases hn : nameSeqExec isUpperB t with
  | none => rw [hn] at h; simp at h
  | some p => exact nameSeqExec_head hn

theorem swtExec_head {t : Str} {x : Str × Str} (h : swtExec t = some x) :
    ∃ c r, t = c :: r ∧ isLetterB c = true := by
  unfold swtExec at h
  cases hn : nameSeqExec isLetterB t with
  | none => rw [hn] at h; simp at h
  | some p => exact nameSeqExec_head hn

theorem not_digit_of_letter {c : Char} (h : isLetterB c = true) : isDigitB c = false := by
  unfold isLetterB isUpperB isLowerB at h
  unfold isDigitB
  rw [Bool.or_eq_true, Bool.and_eq_true, Bool.and_eq_true] at h
  by_contra hd
  rw [Bool.not_eq_false, Bool.and_eq_true] at hd
  have h9 : c ≤ '9' := of_decide_eq_true hd.2
  rcases h with h | h
  · exact absurd (le_trans (of_decide_eq_true h.1) h9) (by decide)
  · exact absurd (le_trans (of_decide_eq_true h.1) h9) (by decide)

theorem longTsExact_none_of_head {ci : Bool} {c : Char} {r : Str}
    (h : isDigitB c = false) : longTsExact ci (c :: r) = none := by
  unfold longTsExact
  simp [List.takeWhile_cons, h]

theorem shortTsExact_false_of_head {c : Char} {r : Str} (h : isDigitB c = false) :
    shortTsExact (c :: r) = false := by
  rcases r with _ | ⟨a, r⟩
  · rfl
  rcases r with _ | ⟨b, r⟩
  · rfl
  rcases r with _ | ⟨d, r⟩
  · rfl
  rcases r with _ | ⟨e, r⟩
  · simp [shortTsExact, h]
  rcases r with _ | ⟨f, r⟩
  · simp [shortTsExact, h]
  · rfl

/-! ### Lemmas for participant extraction -/

theorem strLe_total : ∀ a b : Str, strLe a b = true ∨ strLe b a = true := by
  intro a
  induction a with
  | nil => intro b; left; rfl
  | cons x xs ih =>
    intro b
    cases b with
    | nil => right; rfl
    | cons y ys =>
      simp only [strLe]
      rcases lt_trichotomy x y with h | h | h
      · left; rw [if_pos h]
      · subst h
        rw [if_neg (lt_irrefl x)]
        rcases ih ys with h2 | h2
        · left; rw [if_neg (lt_irrefl x)]; exact h2
        · right; rw [if_neg (lt_irrefl x), if_neg (lt_irrefl x)]; exact h2
      · right; rw [if_pos h]

theorem strLe_trans : ∀ a b c : Str, strLe a b = true → strLe b c = true →
    strLe a c = true := by
  intro a
  induction a with
  | nil => intro b c _ _; rfl
  | cons x xs ih =>
    intro b c h1 h2
    cases b with
    | nil => simp [strLe] at h1
    | cons y ys =>
      cases c with
      | nil => simp [strLe] at h2
      | cons z zs =>
        simp only [strLe] at h1 h2 ⊢
        rcases lt_trichotomy x y with hxy | hxy | hxy
        · rcases lt_trichotomy y z with hyz | hyz | hyz
          · rw [if_pos (lt_trans hxy hyz)]
          · subst hyz; rw [if_pos hxy]
          · rw [if_neg (lt_asymm hyz), if_pos hyz] at h2
            exact absurd h2 (by simp)
        · subst hxy
          rw [if_neg (lt_irrefl x), if_neg (lt_irrefl x)] at h1
          rcases lt_trichotomy x z with hxz | hxz | hxz
          · rw [if_pos hxz]
          · subst hxz
            rw [if_neg (lt_irrefl x), if_neg (lt_irrefl x)] at h2 ⊢
            exact ih ys zs h1 h2
          · rw [if_neg (lt_asymm hxz), if_pos hxz] at h2
            exact absurd h2 (by simp)
        · rw [if_neg (lt_asymm hxy), if_pos hxy] at h1
          exact absurd h1 (by simp)

instance : IsTotal Str strLeR :=
  ⟨fun a b => strLe_total a b⟩

instance : IsTrans Str strLeR :=
  ⟨fun a b c h1 h2 => strLe_trans a b c h1 h2⟩

theorem mem_addName {acc : List Str} {x n : Str} :
    n ∈ addName acc x ↔ n ∈ acc ∨ (n = x ∧ x ∉ partDenylist) := by
  unfold addName
  split_ifs with h1 h2
  · constructor
    · intro h; exact Or.inl h
    · rintro (h | ⟨rfl, h⟩)
      · exact h
      · exact absurd h1 h
  · constructor
    · intro h; exact Or.inl h
    · rintro (h | ⟨rfl, _⟩)
      · exact h
      · exact h2
  · rw [List.mem_append]
    constructor
    · rintro (h | h)
      · exact Or.inl h
      · exact Or.inr ⟨by simpa using h, h1⟩
    · rintro (h | ⟨rfl, _⟩)
      · exact Or.inl h
      · exact Or.inr (by simp)

theorem nodup_addName {acc : List Str} {x : Str} (h : acc.Nodup) : (addName acc x).Nodup := by
  unfold addName
  split_ifs with h1 h2
  · exact h
  · exact h
  · rw [List.nodup_append]
    exact ⟨h, List.nodup_singleton x, by simpa using h2⟩

theorem mem_foldl_addName :
    ∀ (l acc : List Str) (n : Str),
      n ∈ l.foldl addName acc ↔ n ∈ acc ∨ (n ∈ l ∧ n ∉ partDenylist) := by
  intro l
  induction l with
  | nil => intro acc n; simp
  | cons x t ih =>
    intro acc n
    rw [List.foldl_cons, ih, mem_addName, List.mem_cons]
    constructor
    · rintro ((h | ⟨rfl, hd⟩) | ⟨h, hd⟩)
      · exact Or.inl h
      · exact Or.inr ⟨Or.inl rfl, hd⟩
      · exact Or.inr ⟨Or.inr h, hd⟩
    · rintro (h | ⟨h | h, hd⟩)
      · exact Or.inl (Or.inl h)
      · exact Or.inl (Or.inr ⟨h, h ▸ hd⟩)
      · exact Or.inr ⟨h, hd⟩

theorem nodup_foldl_addName :
    ∀ (l acc : List Str), acc.Nodup → (l.foldl addName acc).Nodup := by
  intro l
  induction l with
  | nil => intro acc h; exact h
  | cons x t ih =>
    intro acc h
    exact ih _ (nodup_addName h)

/-! ## Claim theorems -/

/-- C1 (counterexample): `detectTranscriptFormat("5:43")` is `teams-text`
although `"5:43"` matches none of the vtt or srt signatures and none of the
three phrase signatures the claim lists (the disclaimer, `started
transcription`, and the duration phrase), so the claimed "exactly when" is
false on `detectTranscriptFormat`. -/
theorem c1_counterexample :
    detectTranscriptFormat (ofString "5:43") = TFormat.teamsText ∧
    teamsSig3B (trimS (ofString "5:43")) = false ∧
    vttSigB (trimS (ofString "5:43")) = false ∧
    srtSigB (trimS (ofString "5:43")) = false := by decide

/-- C1 (amended): the three-phrase characterisation of `teams-text` holds
for `detectFormat` of `api/upload.ts`; for `detectTranscriptFormat` of
`lib/teams.ts` the equivalence instead needs all five Teams signatures
(the three phrases plus the standalone short-timestamp line and the
timestamp-then-capitalised-name patterns), and `plain` is returned exactly
when no vtt, srt, or teams-text signature matches. -/
theorem c1_amended : ∀ s : Str,
    (detectFormat s = TFormat.teamsText ↔
      vttSigB (trimS s) = false ∧ srtSigB (trimS s) = false ∧
        teamsSig3B (trimS s) = true) ∧
    (detectFormat s = TFormat.plain ↔
      vttSigB (trimS s) = false ∧ srtSigB (trimS s) = false ∧
        teamsSig3B (trimS s) = false) ∧
    (detectTranscriptFormat s = TFormat.teamsText ↔
      vttSigB (trimS s) = false ∧ srtSigB (trimS s) = false ∧
        teamsSigB (trimS s) = true) ∧
    (detectTranscriptFormat s = TFormat.plain ↔
      vttSigB (trimS s) = false ∧ srtSigB (trimS s) = false ∧
        teamsSigB (trimS s) = false) := by
  intro s
  unfold detectFormat detectTranscriptFormat
  dsimp only
  split_ifs <;> simp_all

/-- C2 (counterexample): `parseTranscript("Alice:")` produces exactly one
entry and its text is empty (empty after trimming as well), refuting the
claim that every entry has non-empty trimmed text. -/
theorem c2_counterexample :
    (parseTranscript (ofString "Alice:")).entries =
      [⟨some (ofString "Alice"), none, []⟩] ∧ trimS ([] : Str) = [] := by decide

/-- C2 (amended): every entry of `parseTranscript(s).entries` is built from
a non-empty block of `rawText` (the empty blocks are filtered out, so no
entry comes from an empty buffer), but the entry's text itself may be empty
when its block has no content after the speaker's colon. -/
theorem c2_amended (s : Str) :
    ∀ e ∈ (parseTranscript s).entries,
      ∃ b, b ∈ splitOn2Nl (parseTranscript s).rawText ∧ b ≠ [] ∧ e = mkEntry b := by
  intro e he
  simp only [parseTranscript] at he ⊢
  rcases List.mem_map.mp he with ⟨b, hb, hbe⟩
  have hb2 := List.mem_filter.mp hb
  exact ⟨b, hb2.1, by simpa using hb2.2, hbe.symm⟩

theorem c2_witness :
    (⟨some (ofString "Alice"), none, ([] : Str)⟩ : PEntry) ∈
        (parseTranscript (ofString "Alice:")).entries ∧
      ∃ b, b ∈ splitOn2Nl (parseTranscript (ofString "Alice:")).rawText ∧ b ≠ [] ∧
        (⟨some (ofString "Alice"), none, ([] : Str)⟩ : PEntry) = mkEntry b :=
  ⟨by decide, c2_amended (ofString "Alice:") _ (by decide)⟩

/-- C3 (counterexample): the empty string falls in the claim's domain (its
trimmed content is vacuously printable and within the maximum) and its
trimmed length is below the minimum, yet `validateTranscript` returns the
distinct no-content error rather than the too-short error. -/
theorem c3_counterexample :
    validateTranscript (ofString "") = VResult.noContent ∧
    VResult.noContent ≠ VResult.tooShort ∧
    (trimS (ofString "")).length < 50 := by decide

/-- C3 (amended): for every NON-empty string whose trimmed content is
within the 10% printability bound and the 10 MiB maximum,
`validateTranscript` returns the too-short error exactly when the trimmed
length is below 50 (length exactly 50 is valid, 49 is rejected), returns
valid exactly when it is at least 50, and never returns the too-large,
likely-binary, or no-content results; all outcomes are returned values. -/
theorem c3_amended (s : Str) (hne : s ≠ [])
    (hbin : 10 * (trimS s).countP (fun c => !isPrintableOk c) ≤ (trimS s).length)
    (hmax : (trimS s).length ≤ 10 * 1024 * 1024) :
    (validateTranscript s = VResult.tooShort ↔ (trimS s).length < 50) ∧
    (validateTranscript s = VResult.valid ↔ 50 ≤ (trimS s).length) ∧
    validateTranscript s ≠ VResult.tooLarge ∧
    validateTranscript s ≠ VResult.likelyBinary ∧
    validateTranscript s ≠ VResult.noContent := by
  unfold validateTranscript
  rw [if_neg (by simpa using hne)]
  dsimp only
  split_ifs with h1 h2 h3 <;> refine ⟨?_, ?_, ?_, ?_, ?_⟩ <;> simp_all <;> omega

theorem c3_witness :
    validateTranscript (List.replicate 50 'a') = VResult.valid ∧
    validateTranscript (List.replicate 49 'a') = VResult.tooShort :=
  ⟨(c3_amended (List.replicate 50 'a') (by decide) (by decide) (by decide)).2.1.mpr
      (by decide),
   (c3_amended (List.replicate 49 'a') (by decide) (by decide) (by decide)).1.mpr
      (by decide)⟩

/-- C4: parsing the given VTT input yields exactly the two entries
`(Alice, "Hello there")` and `(Bob, "Hi Alice")`, and the rendered
normalised text is `"Alice: Hello there\nBob: Hi Alice"`. -/
theorem c4_vtt_roundtrip :
    parseVttEntries (ofString "WEBVTT\n\n<v Alice>Hello there</v>\n\n<v Bob>Hi Alice</v>") =
      [⟨some (ofString "Alice"), none, ofString "Hello there"⟩,
       ⟨some (ofString "Bob"), none, ofString "Hi Alice"⟩] ∧
    (parseTranscript
        (ofString "WEBVTT\n\n<v Alice>Hello there</v>\n\n<v Bob>Hi Alice</v>")).rawText =
      ofString "Alice: Hello there\nBob: Hi Alice" := by decide

/-- C5: an SRT block whose trimmed content has fewer than three lines
contributes no entry, and the 4-line block
`["3", "00:00:05,000 --> 00:00:06,000", "Line one", "Line two"]` yields
exactly one entry with text `"Line one Line two"`; a short block is dropped
from the overall output. -/
theorem c5_srt_blocks :
    (∀ b : Str, (splitNl (trimS b)).length < 3 → srtBlockTexts b = []) ∧
    srtBlockTexts (ofString "3\n00:00:05,000 --> 00:00:06,000\nLine one\nLine two") =
      [ofString "Line one Line two"] ∧
    parseSrtTexts (ofString "short\n\n3\n00:00:05,000 --> 00:00:06,000\nLine one\nLine two") =
      [ofString "Line one Line two"] := by
  refine ⟨?_, by decide, by decide⟩
  intro b h
  unfold srtBlockTexts
  rw [if_neg (by omega)]

theorem c5_witness :
    srtBlockTexts (ofString "hi\nthere") = [] :=
  c5_srt_blocks.1 (ofString "hi\nthere") (by decide)

/-- C6: a standalone timestamp line (short `M:SS` form, or long
`N minutes N seconds` form when the short form does not apply) only updates
the current timestamp and produces no entry; the timestamp then sticks
across speaker changes, so in
`"Alice\n1:15\nFirst remark.\nBob\nSecond remark."` Bob's entry carries
`1:15`, while without any timestamp line both entries carry none. -/
theorem c6_timestamp_sticky :
    (∀ (st : TState) (line : Str), shortTsExact (trimS line) = true →
        teamsStep st line = { st with ts := some (trimS line) }) ∧
    (∀ (st : TState) (line : Str) (g1 g2 : Str),
        shortTsExact (trimS line) = false →
        longTsExact true (trimS line) = some (g1, g2) →
        teamsStep st line = { st with ts := some (g1 ++ ':' :: padStart2 g2) }) ∧
    parseTeamsEntries (ofString "Alice\n1:15\nFirst remark.\nBob\nSecond remark.") =
      [⟨some (ofString "Alice"), some (ofString "1:15"), ofString "First remark."⟩,
       ⟨some (ofString "Bob"), some (ofString "1:15"), ofString "Second remark."⟩] ∧
    parseTeamsEntries (ofString "Alice\nFirst remark.\nBob\nSecond remark.") =
      [⟨some (ofString "Alice"), none, ofString "First remark."⟩,
       ⟨some (ofString "Bob"), none, ofString "Second remark."⟩] := by
  refine ⟨?_, ?_, by decide, by decide⟩
  · intro st line h
    have hne : (trimS line).isEmpty = false := by
      cases htr : trimS line with
      | nil => exact absurd htr (shortTsExact_ne_nil (htr ▸ h))
      | cons a t => rfl
    unfold teamsStep
    dsimp only
    rw [if_neg (by rw [hne]; simp), if_pos h]
  · intro st line g1 g2 hshort hlong
    have hne : (trimS line).isEmpty = false := by
      cases htr : trimS line with
      | nil =>
        rw [htr] at hlong
        simp [longTsExact] at hlong
      | cons a t => rfl
    unfold teamsStep
    dsimp only
    rw [if_neg (by rw [hne]; simp), if_neg (by rw [hshort]; simp), hlong]

theorem c6_witness :
    teamsStep ⟨none, none, [], []⟩ (ofString "5:43") =
      { (⟨none, none, [], []⟩ : TState) with ts := some (trimS (ofString "5:43")) } :=
  c6_timestamp_sticky.1 ⟨none, none, [], []⟩ (ofString "5:43") (by decide)

/-- C7: when `parseTranscript(s)` detects the plain format, re-running the
pipeline on the produced `rawText` yields that same `rawText`. -/
theorem c7_plain_idempotent (s : Str) (h : (parseTranscript s).format = TFormat.plain) :
    (parseTranscript ((parseTranscript s).rawText)).rawText = (parseTranscript s).rawText := by
  have hdet : detectTranscriptFormat s = TFormat.plain := by
    simpa [parseTranscript] using h
  have hraw : (parseTranscript s).rawText = trimS s := by
    simp [parseTranscript, hdet]
  rw [hraw]
  have hdet2 : detectTranscriptFormat (trimS s) = TFormat.plain := by
    rw [detect_trimS]
    exact hdet
  simp [parseTranscript, hdet2, trimS_idem]

theorem c7_witness :
    (parseTranscript ((parseTranscript (ofString "just some notes from the meeting")).rawText)).rawText =
      (parseTranscript (ofString "just some notes from the meeting")).rawText :=
  c7_plain_idempotent (ofString "just some notes from the meeting") (by decide)

/-- C8: `extractParticipants` returns a lexicographically ascending,
duplicate-free list whose members are exactly the line-anchored
speaker-name matches that are not on the denylist; in particular
`extractParticipants("Note: see above\nAlice: hi") = ["Alice"]`. -/
theorem c8_participants :
    (∀ t : Str,
        List.Sorted strLeR (extractParticipants t) ∧
        (extractParticipants t).Nodup ∧
        ∀ n, n ∈ extractParticipants t ↔ n ∈ partScan t ∧ n ∉ partDenylist) ∧
    extractParticipants (ofString "Note: see above\nAlice: hi") = [ofString "Alice"] := by
  refine ⟨?_, by decide⟩
  intro t
  refine ⟨List.sorted_insertionSort strLeR _, ?_, ?_⟩
  · exact ((List.perm_insertionSort strLeR _).nodup_iff).mpr
      (nodup_foldl_addName _ _ List.nodup_nil)
  · intro n
    unfold extractParticipants collectNames
    rw [List.mem_insertionSort, mem_foldl_addName]
    simp

/-- C9: when a speaker-name line is matched while no speaker is active, the
buffer is neither flushed nor cleared, so pre-speaker text merges into the
first speaker's first entry; if no speaker line ever occurs the accumulated
text is emitted once at end of input with a null speaker. -/
theorem c9_pre_speaker_buffer :
    (∀ (st : TState) (line : Str),
        (swtExec (trimS line)).isSome = true ∨ (smExec (trimS line)).isSome = true →
        truthyS st.speaker = false →
        (teamsStep st line).buffer = st.buffer ∧
          (teamsStep st line).entries = st.entries) ∧
    parseTeamsEntries (ofString "some early words\nAlice\nhello everyone") =
      [⟨some (ofString "Alice"), none, ofString "some early words hello everyone"⟩] ∧
    parseTeamsEntries (ofString "some early words\nmore words") =
      [⟨none, none, ofString "some early words more words"⟩] := by
  refine ⟨?_, by decide, by decide⟩
  intro st line hs htr
  have hletter : ∃ c r, trimS line = c :: r ∧ isLetterB c = true := by
    rcases hs with h | h
    · rcases Option.isSome_iff_exists.mp h with ⟨x, hx⟩
      exact swtExec_head hx
    · rcases Option.isSome_iff_exists.mp h with ⟨x, hx⟩
      rcases smExec_head hx with ⟨c, r, h1, h2⟩
      exact ⟨c, r, h1, by simp [isLetterB, h2]⟩
  rcases hletter with ⟨c, r, hcr, hc⟩
  have hdig : isDigitB c = false := not_digit_of_letter hc
  have hshort : shortTsExact (trimS line) = false := by
    rw [hcr]
    exact shortTsExact_false_of_head hdig
  have hlong : longTsExact true (trimS line) = none := by
    rw [hcr]
    exact longTsExact_none_of_head hdig
  have hne : (trimS line).isEmpty = false := by rw [hcr]; rfl
  have hflush : teamsFlush st = st := by
    unfold teamsFlush
    rw [if_neg]
    simp [htr]
  unfold teamsStep
  dsimp only
  rw [if_neg (by rw [hne]; simp), if_neg (by rw [hshort]; simp), hlong]
  dsimp only
  cases hsw : swtExec (trimS line) with
  | some p =>
    rcases p with ⟨nm, ts⟩
    dsimp only
    rw [hflush]
    simp
  | none =>
    cases hsm : smExec (trimS line) with
    | some q =>
      rcases q with ⟨nm, tsOpt⟩
      dsimp only
      rw [hflush]
      simp
    | none =>
      rcases hs with h | h
      · rw [hsw] at h; simp at h
      · rw [hsm] at h; simp at h

theorem c9_witness :
    (teamsStep ⟨none, none, [ofString "early"], []⟩ (ofString "Alice")).buffer =
        [ofString "early"] ∧
      (teamsStep ⟨none, none, [ofString "early"], []⟩ (ofString "Alice")).entries = [] :=
  c9_pre_speaker_buffer.1 ⟨none, none, [ofString "early"], []⟩ (ofString "Alice")
    (Or.inr (by decide)) (by decide)

/-- C10 (counterexample): for the VTT input with speaker `A:B`, the
transcript has two rendered speaker turns and the structured entry list has
length one as claimed, but the single entry's speaker is `"A"`, not the
first turn's speaker `"A:B"` — the block regex stops at the first colon. -/
theorem c10_counterexample :
    (parseTranscript (ofString "WEBVTT\n\n<v A:B>hello</v>\n\n<v Bob>hi</v>")).format =
        TFormat.vtt ∧
    ((parseVttEntries (ofString "WEBVTT\n\n<v A:B>hello</v>\n\n<v Bob>hi</v>")).filter
        fun e => !e.text.isEmpty).length = 2 ∧
    (parseVttEntries (ofString "WEBVTT\n\n<v A:B>hello</v>\n\n<v Bob>hi</v>")).head?.map
        (fun e => e.speaker) = some (some (ofString "A:B")) ∧
    (parseTranscript (ofString "WEBVTT\n\n<v A:B>hello</v>\n\n<v Bob>hi</v>")).entries =
      [⟨some (ofString "A"), none, ofString "B: hello\nBob: hi"⟩] ∧
    ofString "A" ≠ ofString "A:B" := by decide

/-- C10 (amended): for every VTT-format input whose filtered turn list has
at least two turns, provided the first turn's speaker is non-empty,
contains no colon, and does not start with `[`, `parseTranscript` returns
exactly one structured entry; its speaker is the first turn's speaker and
its text is the first turn's text followed by the later turns' rendered
`Speaker: text` lines verbatim. -/
theorem c10_amended (content : Str) (e1 e2 : PEntry) (rest : List PEntry) (sp : Str)
    (hdet : detectTranscriptFormat content = TFormat.vtt)
    (hL : (parseVttEntries content).filter (fun e => !e.text.isEmpty) = e1 :: e2 :: rest)
    (hsp : e1.speaker = some sp) (hspn : sp ≠ [])
    (hcol : ∀ c ∈ sp, c ≠ ':') (hhd : sp.head? ≠ some '[') :
    (parseTranscript content).entries =
      [⟨some sp, none, e1.text ++ '\n' :: joinNl ((e2 :: rest).map renderVttEntry)⟩] := by
  have hmem : ∀ e ∈ e1 :: e2 :: rest, entryOk e ∧ e.text ≠ [] := by
    intro e he
    rw [← hL] at he
    have h2 := List.mem_filter.mp he
    refine ⟨vtt_entries_ok content e h2.1, by simpa using h2.2⟩
  have he1 := hmem e1 (by simp)
  have hlines : ∀ l ∈ (e1 :: e2 :: rest).map renderVttEntry, noNl l ∧ l ≠ [] := by
    intro l hl
    rcases List.mem_map.mp hl with ⟨e, he, hre⟩
    have h3 := renderVttEntry_ok (hmem e he).1 (hmem e he).2
    exact hre ▸ ⟨h3.1, h3.2.1⟩
  have hraw : parseVttTranscript content = joinNl ((e1 :: e2 :: rest).map renderVttEntry) := by
    unfold parseVttTranscript
    rw [hL]
  have hjoin : joinNl ((e1 :: e2 :: rest).map renderVttEntry) =
      renderVttEntry e1 ++ '\n' :: joinNl ((e2 :: rest).map renderVttEntry) := rfl
  have hrend1 : renderVttEntry e1 = sp ++ ':' :: ' ' :: e1.text :=
    renderVttEntry_some hsp hspn
  have hshape : parseVttTranscript content =
      sp ++ ':' :: (' ' :: (e1.text ++ '\n' :: joinNl ((e2 :: rest).map renderVttEntry))) := by
    rw [hraw, hjoin, hrend1]
    simp
  have htail : ∀ l ∈ (e2 :: rest).map renderVttEntry, lastNonWs l ∧ l ≠ [] := by
    intro l hl
    rcases List.mem_map.mp hl with ⟨e, he, hre⟩
    have h3 := renderVttEntry_ok (hmem e (List.mem_cons_of_mem _ he)).1
      (hmem e (List.mem_cons_of_mem _ he)).2
    exact hre ▸ ⟨h3.2.2, h3.2.1⟩
  have hJne : joinNl ((e2 :: rest).map renderVttEntry) ≠ [] := by
    have h2 := htail (renderVttEntry e2) (by simp)
    exact joinNl_ne_nil _ h2.2
  have hlastJ : lastNonWs (joinNl ((e2 :: rest).map renderVttEntry)) :=
    lastNonWs_joinNl (by simp) htail
  have he1clean := clean_of_trimS_fix he1.1.1
  have hY1 : headNonWs (e1.text ++ '\n' :: joinNl ((e2 :: rest).map renderVttEntry)) :=
    headNonWs_append he1.2 he1clean.1
  have hY2 : lastNonWs (e1.text ++ '\n' :: joinNl ((e2 :: rest).map renderVttEntry)) := by
    apply lastNonWs_append (by simp)
    unfold lastNonWs
    rw [List.reverse_cons]
    exact headNonWs_append (by simpa using hJne) hlastJ
  have htrimX : trimS (' ' :: (e1.text ++ '\n' :: joinNl ((e2 :: rest).map renderVttEntry))) =
      e1.text ++ '\n' :: joinNl ((e2 :: rest).map renderVttEntry) :=
    trimS_space_cons hY1 hY2
  have hnl : hasNlNl (parseVttTranscript content) = false := by
    rw [hraw]
    exact hasNlNl_joinNl hlines
  have hsplit : splitOn2Nl (parseVttTranscript content) = [parseVttTranscript content] :=
    splitOn2Nl_of_not_hasNlNl hnl
  have hrawne : (parseVttTranscript content).isEmpty = false := by
    rw [hshape]
    cases sp with
    | nil => exact absurd rfl hspn
    | cons a t => rfl
  have hspfix : trimS sp = sp := (he1.1.2.2 sp hsp).1
  simp only [parseTranscript, hdet]
  rw [hsplit]
  rw [show [parseVttTranscript content].filter (fun b => !b.isEmpty) =
      [parseVttTranscript content] by simp [hrawne]]
  rw [List.map_singleton]
  rw [hshape, mkEntry_of_shape hspn hcol hhd, hspfix, htrimX]

theorem c10_witness :
    (parseTranscript
        (ofString "WEBVTT\n\n<v Alice>Hello there</v>\n\n<v Bob>Hi Alice</v>")).entries =
      [⟨some (ofString "Alice"), none,
        ofString "Hello there" ++ '\n' ::
          joinNl ([(⟨some (ofString "Bob"), none, ofString "Hi Alice"⟩ : PEntry)].map
            renderVttEntry)⟩] :=
  c10_amended (ofString "WEBVTT\n\n<v Alice>Hello there</v>\n\n<v Bob>Hi Alice</v>")
    ⟨some (ofString "Alice"), none, ofString "Hello there"⟩
    ⟨some (ofString "Bob"), none, ofString "Hi Alice"⟩ [] (ofString "Alice")
    (by decide) (by decide) (by decide) (by decide) (by decide) (by decide)

